import Mathlib

/-!
Verification of the queue engine of `src/queue.c` (lab0-c).

The C code implements a circular doubly-linked list with a sentinel head
(`struct list_head`) whose payload nodes (`element_t`) own a heap-allocated
NUL-terminated byte string.  We embed the queue shallowly: the observable
content of a queue is the head-to-tail sequence of stored byte strings, a
`List V` with `V := List Nat` (the bytes of the string before the NUL
terminator).  Each operation of `queue.c` is translated to a Lean function on
that representation; operations whose link manipulation is independent of the
stored values (`q_swap`, `q_reverse`, `q_delete_mid`, `q_shuffle`, insert and
remove) are stated over an arbitrary element type `α`, and the operations
driven by `cmp`/`strcmp` (`q_sort`, `q_delete_dup`) take the comparison as a
parameter, instantiated with `strcmp` for the value-level claims and with a
comparison on tagged values `(id, value)` for node-identity claims
(stability, ring integrity).  A `NULL` queue pointer is modelled by `none` in
an `Option` wrapper where an operation's contract distinguishes it.
-/

namespace LabQueue

/-- Byte strings: the bytes of a C string before its NUL terminator. -/
abbrev V := List Nat

/-- Sign model of libc `strcmp` on NUL-free byte strings: compare byte-wise,
a strict prefix is smaller.  `queue.c` only ever inspects the sign of the
result (`cmp(a,b) <= 0`, `strcmp(...) == 0`), so the result is normalised to
`-1`, `0`, `1`. -/
def strcmp : V → V → Int
  | [], [] => 0
  | [], _ :: _ => -1
  | _ :: _, [] => 1
  | a :: as, b :: bs =>
    if a < b then -1 else if b < a then 1 else strcmp as bs

variable {α : Type}

/-- `q_insert_head` (queue.c:52-68), successful path: allocate an element,
copy the string, `list_add` at the head.  The stored value is the exact copy
made by `strncpy(new->value, s, strlen(s)+1)`. -/
def q_insert_head (x : α) (l : List α) : List α := x :: l

/-- `q_insert_tail` (queue.c:77-93), successful path: `list_add_tail`. -/
def q_insert_tail (x : α) (l : List α) : List α := l ++ [x]

/-- `q_remove_head` (queue.c:109-121): `NULL`/empty gives no element,
otherwise unlink `head->next` and return it together with the remaining
queue. -/
def q_remove_head : List α → Option (α × List α)
  | [] => none
  | x :: rest => some (x, rest)

/-- `q_remove_tail` (queue.c:127-139): unlink `head->prev`. -/
def q_remove_tail (l : List α) : Option (α × List α) :=
  match l.getLast? with
  | none => none
  | some x => some (x, l.dropLast)

/-- The queue left behind by `q_remove_head` (unchanged when it returns
`NULL`). -/
def afterRemoveHead (l : List α) : List α :=
  match q_remove_head l with
  | none => l
  | some p => p.2

/-- The queue left behind by `q_remove_tail`. -/
def afterRemoveTail (l : List α) : List α :=
  match q_remove_tail l with
  | none => l
  | some p => p.2

/-- Number of iterations of the cursor loop in `q_delete_mid`
(queue.c:179-181): `for (int len = q_size(head); len > 0; len -= 2)
node = node->next;`. -/
def midWalkSteps : Nat → Nat
  | 0 => 0
  | 1 => 1
  | n + 2 => 1 + midWalkSteps n

/-- `q_delete_mid` (queue.c:174-187) on a non-`NULL` queue: the cursor starts
at the sentinel and advances `midWalkSteps n` times, so the deleted element
is at 0-based index `midWalkSteps n - 1`. -/
def q_delete_mid_list (l : List α) : List α :=
  if l.isEmpty then l else l.eraseIdx (midWalkSteps l.length - 1)

/-- `q_delete_mid` including its `NULL`/empty guard (queue.c:176-177). -/
def q_delete_mid : Option (List α) → Bool × Option (List α)
  | none => (false, none)
  | some l => if l.isEmpty then (false, some l) else (true, some (q_delete_mid_list l))

/-- Inner loop of `q_delete_dup` (queue.c:214-219): while the successor of
the run head compares equal, move it to the scratch list `del_q`. -/
def dropRun (c : α → α → Int) (x : α) : List α → List α
  | [] => []
  | y :: rest => if c x y = 0 then dropRun c x rest else y :: rest

/-- Scan of `q_delete_dup` (queue.c:198-229) over the element sequence: on a
pair of equal adjacent values the whole run is moved to the scratch list
(including the run head, via `list_move(node->prev, del_q)` after the inner
loop), otherwise the cursor advances.  The scratch list is destroyed in bulk
by `q_free(del_q)`, so only the surviving sequence is observable. -/
def q_delete_dup_go (c : α → α → Int) : List α → List α
  | [] => []
  | [x] => [x]
  | x :: y :: rest =>
    if c x y = 0 then q_delete_dup_go c (dropRun c x (y :: rest))
    else x :: q_delete_dup_go c (y :: rest)
termination_by l => l.length
decreasing_by
  have h : ∀ (z : α) (m : List α), (dropRun c z m).length ≤ m.length := by
    intro z m
    induction m with
    | nil => simp [dropRun]
    | cons w rest ih =>
      simp only [dropRun]
      split
      · exact Nat.le_trans ih (Nat.le_succ _)
      · exact Nat.le_refl _
  all_goals simp_all
  exact Nat.lt_succ_of_le (h x (y :: rest))

/-- `q_delete_dup` with its `NULL` guard (queue.c:200-203): `false` only for
a `NULL` queue, `true` otherwise. -/
def q_delete_dup (c : α → α → Int) : Option (List α) → Bool × Option (List α)
  | none => (false, none)
  | some l => (true, some (q_delete_dup_go c l))

/-- `q_swap` (queue.c:234-248): every node at odd index is unlinked and
re-inserted in front of the node that preceded its pair, exchanging the pair
`(2k, 2k+1)`; a trailing odd element stays. -/
def q_swap : List α → List α
  | [] => []
  | [x] => [x]
  | x :: y :: rest => y :: x :: q_swap rest

/-- `q_reverse` (queue.c:257-267): each node is detached in traversal order
and re-attached at the head (`list_del` + `list_add(node, head)`). -/
def q_reverse (l : List α) : List α := l.foldl (fun acc x => x :: acc) []

/-- `q_reverse` including the `NULL` no-op guard. -/
def q_reverse_opt : Option (List α) → Option (List α)
  | none => none
  | some l => some (q_reverse l)

/-- `merge` (queue.c:399-422): merge two runs, taking from the first run `a`
whenever `cmp(a, b) <= 0`.  `merge_final` (queue.c:424-459) performs the same
comparisons while restoring the `prev` links and the circular closure, so at
the level of element sequences both are this function. -/
def merge (c : α → α → Int) : List α → List α → List α
  | [], b => b
  | x :: as, [] => x :: as
  | x :: as, y :: bs =>
    if c x y ≤ 0 then x :: merge c as (y :: bs)
    else y :: merge c (x :: as) bs
termination_by a b => a.length + b.length

/-- One pass of the binary-counter collapse in `q_sort` (queue.c:362-371):
`tail` descends one pending slot per trailing 1-bit of `count`; if the
remaining bits are non-zero the two runs at that depth are merged,
`merge(b, a)` with `b` the deeper (earlier) run.  The stack is represented
newest-run first, linked in the C code through `prev` pointers. -/
def mergeCollapse (c : α → α → Int) : Nat → List (List α) → List (List α)
  | _, [] => []
  | bits, r :: rest =>
    if bits % 2 = 1 then r :: mergeCollapse c (bits / 2) rest
    else if bits = 0 then r :: rest
    else
      match rest with
      | b :: rest2 => merge c b r :: rest2
      | [] => [r]

/-- Main loop of `q_sort` (queue.c:361-377): for each element, collapse the
pending stack according to `count`, push the element as a singleton run, and
increment `count`. -/
def sortLoop (c : α → α → Int) : List α → List (List α) → Nat → List (List α)
  | [], pending, _ => pending
  | x :: rest, pending, count =>
    sortLoop c rest ([x] :: mergeCollapse c count pending) (count + 1)

/-- Final fold of `q_sort` (queue.c:378-387): starting from the newest run,
merge each deeper pending run into the accumulated list (`list = merge
(pending, list)`), the last one via `merge_final`. -/
def mergeAllGo (c : α → α → Int) : List α → List (List α) → List α
  | acc, [] => acc
  | acc, r :: rest => mergeAllGo c (merge c r acc) rest

/-- `q_sort` (queue.c:353-388): no-op below two elements, otherwise the
bottom-up merge sort rewritten from `list_sort.c`. -/
def q_sort (c : α → α → Int) : List α → List α
  | [] => []
  | [x] => [x]
  | x :: y :: rest =>
    match sortLoop c (x :: y :: rest) [] 0 with
    | [] => []
    | r :: prest => mergeAllGo c r prest

/-- Comparison used by `q_sort`/`q_delete_dup` on nodes tagged with their
identity: `cmp` (queue.c:390-397) dereferences only the stored value. -/
def cmpSnd (a b : Nat × V) : Int := strcmp a.2 b.2

/-- Steps of `q_shuffle` (queue.c:469-477).  At remaining length `len ≥ 2`
the code walks `rand() % len` nodes from `head->next`, unlinks that node and
re-inserts it with `list_add(node, tail->prev)`, i.e. immediately before the
previously placed node, so the ring becomes
`remaining ++ node :: alreadyPlaced`.  `r k` models the `k`-th value returned
by `rand()` after `srand(time(0))`. -/
def q_shuffle_go (r : Nat → Nat) : Nat → Nat → List α → List α → List α
  | _, 0, uns, placed => uns ++ placed
  | _, 1, uns, placed => uns ++ placed
  | k, len + 2, uns, placed =>
    match uns[r k % (len + 2)]? with
    | none => uns ++ placed
    | some node =>
      q_shuffle_go r (k + 1) (len + 1) (uns.eraseIdx (r k % (len + 2))) (node :: placed)

/-- `q_shuffle` (queue.c:462-478): no-op below two elements, then the
walking Fisher-Yates loop for `len` from `n` down to `2`. -/
def q_shuffle (r : Nat → Nat) : List α → List α
  | [] => []
  | [x] => [x]
  | x :: y :: rest => q_shuffle_go r 0 (x :: y :: rest).length (x :: y :: rest) []

/-- Modelled from the spec: the shuffle step as the specification words it,
"pick a uniformly random index in `[0, len-1)` by walking from the head" —
i.e. the drawn index is `r k % (len - 1)` instead of the code's
`r k % len`.  Used only to compare the specified index range against the
code. -/
def q_shuffle_spec_go (r : Nat → Nat) : Nat → Nat → List α → List α → List α
  | _, 0, uns, placed => uns ++ placed
  | _, 1, uns, placed => uns ++ placed
  | k, len + 2, uns, placed =>
    match uns[r k % (len + 1)]? with
    | none => uns ++ placed
    | some node =>
      q_shuffle_spec_go r (k + 1) (len + 1) (uns.eraseIdx (r k % (len + 1))) (node :: placed)

/-- Modelled from the spec: `q_shuffle` with the spec's index range. -/
def q_shuffle_spec (r : Nat → Nat) : List α → List α
  | [] => []
  | [x] => [x]
  | x :: y :: rest => q_shuffle_spec_go r 0 (x :: y :: rest).length (x :: y :: rest) []

/-- `q_insert_head` (queue.c:52-68) with the allocation outcomes made
explicit.  `heap` is the multiset of live allocation identifiers, `fresh` an
identifier not yet allocated; `elemOk`/`bufOk` tell whether
`malloc(sizeof(element_t))` and `malloc(len)` succeed.  On the path where the
buffer allocation fails the already-allocated element is released
(`free(new)`, queue.c:62) before returning `false`.  Result: (return value,
queue, live heap). -/
def q_insert_head_alloc (heap : List Nat) (fresh : Nat) (elemOk bufOk : Bool)
    (q : Option (List V)) (s : V) : Bool × Option (List V) × List Nat :=
  match q with
  | none => (false, none, heap)
  | some l =>
    if elemOk = false then (false, some l, heap)
    else
      let heap1 := fresh :: heap
      if bufOk = false then (false, some l, heap1.erase fresh)
      else (true, some (s :: l), (fresh + 1) :: heap1)

/-- `q_insert_tail` (queue.c:77-93) with explicit allocation outcomes; the
failure paths are identical to `q_insert_head_alloc`, the success path links
at the tail. -/
def q_insert_tail_alloc (heap : List Nat) (fresh : Nat) (elemOk bufOk : Bool)
    (q : Option (List V)) (s : V) : Bool × Option (List V) × List Nat :=
  match q with
  | none => (false, none, heap)
  | some l =>
    if elemOk = false then (false, some l, heap)
    else
      let heap1 := fresh :: heap
      if bufOk = false then (false, some l, heap1.erase fresh)
      else (true, some (l ++ [s]), (fresh + 1) :: heap1)

/-- Width of `size_t` on the target (64-bit). -/
def sizeTMod : Nat := 2 ^ 64

/-- The third argument `bufsize - 1` of `strncpy(sp, remove->value,
bufsize - 1)` (queue.c:116/134), computed in `size_t` arithmetic. -/
def copyLen (bufsize : Nat) : Nat := (bufsize + sizeTMod - 1) % sizeTMod

/-- The index of the terminator store `sp[bufsize - 1] = ⟨NUL⟩`
(queue.c:117/135), computed in `size_t` arithmetic. -/
def termIdx (bufsize : Nat) : Nat := (bufsize + sizeTMod - 1) % sizeTMod

/-- All stores performed on `sp` land inside a buffer of `bufsize` bytes:
`strncpy` writes indices `[0, copyLen)` and the terminator is written at
`termIdx`. -/
def writesInBounds (bufsize : Nat) : Prop :=
  copyLen bufsize ≤ bufsize ∧ termIdx bufsize < bufsize

/-- The `n` bytes written by `strncpy(dst, src, n)`: the bytes of `src` up to
`n`, zero-padded to exactly `n` bytes. -/
def strncpyBuf (src : List Nat) (n : Nat) : List Nat :=
  src.take n ++ List.replicate (n - src.length) 0

/-- Contents of `sp` after `q_remove_head`/`q_remove_tail` copy out the
removed value (queue.c:116-117): `strncpy` with length `copyLen bufsize`
followed by the NUL store at `termIdx bufsize` (the position one past the
copied bytes). -/
def spAfter (src : List Nat) (bufsize : Nat) : List Nat :=
  strncpyBuf src (copyLen bufsize) ++ [0]

/-- Successor function of the sentinel ring holding the nodes
`ring = sentinel :: ids` in order: `n->next`. -/
def ringNext (ring : List Nat) (x : Nat) : Nat :=
  ring.getD ((ring.indexOf x + 1) % ring.length) 0

/-- Predecessor function of the sentinel ring: `n->prev`. -/
def ringPrev (ring : List Nat) (x : Nat) : Nat :=
  ring.getD ((ring.indexOf x + ring.length - 1) % ring.length) 0

/-- The ring invariant of the spec (I1/I3): mutual `next`/`prev`
back-references, and the forward (resp. backward) traversal from the
sentinel visits every live node exactly once, in order (resp. reverse
order), and returns to the sentinel. -/
def RingOK (sent : Nat) (ids : List Nat) : Prop :=
  (∀ x ∈ sent :: ids,
      ringPrev (sent :: ids) (ringNext (sent :: ids) x) = x ∧
      ringNext (sent :: ids) (ringPrev (sent :: ids) x) = x) ∧
  (List.range (ids.length + 1)).map (fun k => (fun y => ringNext (sent :: ids) y)^[k] sent)
      = sent :: ids ∧
  (fun y => ringNext (sent :: ids) y)^[ids.length + 1] sent = sent ∧
  (List.range (ids.length + 1)).map (fun k => (fun y => ringPrev (sent :: ids) y)^[k] sent)
      = sent :: ids.reverse ∧
  (fun y => ringPrev (sent :: ids) y)^[ids.length + 1] sent = sent

/-- `X` is entirely `P`-below `Y`, element-wise. -/
def SepL (P : α → α → Prop) (X Y : List α) : Prop := ∀ x ∈ X, ∀ y ∈ Y, P x y

/-- Invariant of the pending-run stack of `q_sort` (newest run first): every
run is sorted for `le'`, and every run is entirely `P`-above every newer
run. -/
def StackInv (le' P : α → α → Prop) (pending : List (List α)) : Prop :=
  (∀ r ∈ pending, List.Chain' le' r) ∧
  List.Pairwise (fun hi lo => SepL P lo hi) pending

end LabQueue

namespace LabQueue

theorem strcmp_eq_zero_iff : ∀ a b : V, strcmp a b = 0 ↔ a = b
  | [], [] => by simp [strcmp]
  | [], _ :: _ => by simp [strcmp]
  | _ :: _, [] => by simp [strcmp]
  | a :: as, b :: bs => by
    simp only [strcmp]
    rcases Nat.lt_trichotomy a b with h | h | h
    · simp only [if_pos h]
      constructor
      · intro hc; exact absurd hc (by decide)
      · intro hc
        cases hc
        exact absurd h (Nat.lt_irrefl a)
    · subst h
      simp only [if_neg (Nat.lt_irrefl a)]
      rw [strcmp_eq_zero_iff as bs]
      constructor
      · intro h2; rw [h2]
      · intro h2; cases h2; rfl
    · rw [if_neg (Nat.lt_asymm h), if_pos h]
      constructor
      · intro hc; exact absurd hc (by decide)
      · intro hc
        cases hc
        exact absurd h (Nat.lt_irrefl a)

theorem strcmp_self (a : V) : strcmp a a = 0 := (strcmp_eq_zero_iff a a).2 rfl

theorem strcmp_swap : ∀ a b : V, strcmp b a = -strcmp a b
  | [], [] => by simp [strcmp]
  | [], _ :: _ => by simp [strcmp]
  | _ :: _, [] => by simp [strcmp]
  | a :: as, b :: bs => by
    simp only [strcmp]
    rcases Nat.lt_trichotomy a b with h | h | h
    · rw [if_pos h, if_neg (Nat.lt_asymm h), if_pos h]; rfl
    · subst h
      simp only [if_neg (Nat.lt_irrefl a)]
      exact strcmp_swap as bs
    · rw [if_pos h, if_neg (Nat.lt_asymm h), if_pos h]

theorem strcmp_lt_trans : ∀ a b c : V, strcmp a b < 0 → strcmp b c < 0 → strcmp a c < 0
  | [], [], _, hab, _ => by simp [strcmp] at hab
  | [], _ :: _, [], _, hbc => by simp [strcmp] at hbc
  | [], _ :: _, _ :: _, _, _ => by simp [strcmp]
  | _ :: _, [], _, hab, _ => by simp [strcmp] at hab
  | _ :: _, _ :: _, [], _, hbc => by simp [strcmp] at hbc
  | a :: as, b :: bs, c :: cs, hab, hbc => by
    simp only [strcmp] at hab hbc ⊢
    rcases Nat.lt_trichotomy a b with h1 | h1 | h1
    · rcases Nat.lt_trichotomy b c with h2 | h2 | h2
      · rw [if_pos (Nat.lt_trans h1 h2)]; decide
      · subst h2; rw [if_pos h1]; decide
      · rw [if_neg (Nat.lt_asymm h2), if_pos h2] at hbc
        exact absurd hbc (by decide)
    · subst h1
      rcases Nat.lt_trichotomy a c with h2 | h2 | h2
      · rw [if_pos h2]; decide
      · subst h2
        simp only [if_neg (Nat.lt_irrefl a)] at hab hbc ⊢
        exact strcmp_lt_trans as bs cs hab hbc
      · rw [if_neg (Nat.lt_asymm h2), if_pos h2] at hbc
        exact absurd hbc (by decide)
    · rw [if_neg (Nat.lt_asymm h1), if_pos h1] at hab
      exact absurd hab (by decide)

theorem strcmp_lt_of_le_ne {a b : V} (h : strcmp a b ≤ 0) (hne : strcmp a b ≠ 0) :
    strcmp a b < 0 := by omega

theorem strcmp_le_iff {a b : V} : strcmp a b ≤ 0 ↔ a = b ∨ strcmp a b < 0 := by
  constructor
  · intro h
    by_cases h0 : strcmp a b = 0
    · exact Or.inl ((strcmp_eq_zero_iff a b).1 h0)
    · exact Or.inr (strcmp_lt_of_le_ne h h0)
  · rintro (rfl | h)
    · rw [strcmp_self]
    · omega

theorem strcmp_lt_of_lt_of_le {a b c : V} (h1 : strcmp a b < 0) (h2 : strcmp b c ≤ 0) :
    strcmp a c < 0 := by
  rcases strcmp_le_iff.1 h2 with rfl | h2
  · exact h1
  · exact strcmp_lt_trans a b c h1 h2

theorem strcmp_le_trans {a b c : V} (h1 : strcmp a b ≤ 0) (h2 : strcmp b c ≤ 0) :
    strcmp a c ≤ 0 := by
  rcases strcmp_le_iff.1 h1 with rfl | h1
  · exact h2
  · exact Int.le_of_lt (strcmp_lt_of_lt_of_le h1 h2)

theorem strcmp_le_of_not_le {a b : V} (h : ¬ strcmp a b ≤ 0) : strcmp b a ≤ 0 := by
  rw [strcmp_swap a b]
  omega

theorem q_reverse_eq_reverse (l : List V) : q_reverse l = l.reverse := by
  simp [q_reverse]

/-- C6: a successful `q_insert_head` immediately followed by `q_remove_head`
— and likewise `q_insert_tail` followed by `q_remove_tail` — yields an
element whose stored value is exactly the inserted string `s` (the empty
string included, since `V` is arbitrary here) and leaves the rest of the
queue in its original order. -/
theorem insert_remove_round_trip (s : V) (l : List V) :
    q_remove_head (q_insert_head s l) = some (s, l) ∧
    q_remove_tail (q_insert_tail s l) = some (s, l) := by
  refine ⟨rfl, ?_⟩
  simp [q_remove_tail, q_insert_tail, List.getLast?_concat]

/-- C7: `q_reverse` is an involution; a single application inverts the
head-to-tail order; the result is a permutation of the input (the same nodes
are re-linked — nothing is allocated or freed); and a `NULL` or empty queue
is left untouched. -/
theorem reverse_involution (l : List V) :
    q_reverse (q_reverse l) = l ∧
    q_reverse l = l.reverse ∧
    (q_reverse l).Perm l ∧
    q_reverse_opt (none : Option (List V)) = none ∧
    q_reverse ([] : List V) = [] := by
  refine ⟨?_, q_reverse_eq_reverse l, ?_, rfl, rfl⟩
  · rw [q_reverse_eq_reverse, q_reverse_eq_reverse, List.reverse_reverse]
  · rw [q_reverse_eq_reverse]
    exact List.reverse_perm l

/-- C8: `q_insert_head`/`q_insert_tail` return `false` exactly when the
queue is `NULL` or an allocation fails, and every failure path leaves both
the queue and the set of live allocations unchanged — in particular, when
the buffer allocation fails after the element allocation succeeded, the
element is freed again (`(fresh :: heap).erase fresh = heap`). -/
theorem insert_failure_paths (heap : List Nat) (fresh : Nat) (eOk bOk : Bool)
    (q : Option (List V)) (s : V) (l : List V) :
    (q_insert_head_alloc heap fresh eOk bOk none s = (false, none, heap)) ∧
    (q_insert_head_alloc heap fresh false bOk (some l) s = (false, some l, heap)) ∧
    (q_insert_head_alloc heap fresh true false (some l) s = (false, some l, heap)) ∧
    (q_insert_head_alloc heap fresh true true (some l) s
        = (true, some (s :: l), (fresh + 1) :: fresh :: heap)) ∧
    ((q_insert_head_alloc heap fresh eOk bOk q s).1 = false
        ↔ q = none ∨ eOk = false ∨ bOk = false) ∧
    (q_insert_tail_alloc heap fresh eOk bOk none s = (false, none, heap)) ∧
    (q_insert_tail_alloc heap fresh false bOk (some l) s = (false, some l, heap)) ∧
    (q_insert_tail_alloc heap fresh true false (some l) s = (false, some l, heap)) ∧
    (q_insert_tail_alloc heap fresh true true (some l) s
        = (true, some (l ++ [s]), (fresh + 1) :: fresh :: heap)) ∧
    ((q_insert_tail_alloc heap fresh eOk bOk q s).1 = false
        ↔ q = none ∨ eOk = false ∨ bOk = false) := by
  refine ⟨rfl, by simp [q_insert_head_alloc], by simp [q_insert_head_alloc], rfl, ?_,
    rfl, by simp [q_insert_tail_alloc], by simp [q_insert_tail_alloc], rfl, ?_⟩
  · rcases q with _ | l'
    · simp [q_insert_head_alloc]
    · cases eOk <;> cases bOk <;> simp [q_insert_head_alloc]
  · rcases q with _ | l'
    · simp [q_insert_tail_alloc]
    · cases eOk <;> cases bOk <;> simp [q_insert_tail_alloc]

/-- C10: the copy in `q_remove_head`/`q_remove_tail` computes its length
`bufsize - 1` in `size_t` arithmetic, so for `bufsize = 0` the length wraps
to `SIZE_MAX` and the terminator store at `sp[bufsize - 1]` is out of
bounds; under the precondition `bufsize ≥ 1` every store lands inside the
buffer and `sp` receives at most `bufsize - 1` bytes of the value followed
by a NUL terminator. -/
theorem remove_copy_bounds (b : Nat) (h1 : 1 ≤ b) (h2 : b < sizeTMod) :
    (copyLen 0 = sizeTMod - 1 ∧ ¬ writesInBounds 0) ∧
    copyLen b = b - 1 ∧
    writesInBounds b ∧
    ∀ src : List Nat,
      spAfter src b = src.take (b - 1) ++ List.replicate (b - 1 - src.length) 0 ++ [0] ∧
      (spAfter src b).length = b := by
  have hM : 0 < sizeTMod := by decide
  have hcl : copyLen b = b - 1 := by
    unfold copyLen
    have he : b + sizeTMod - 1 = (b - 1) + sizeTMod := by omega
    rw [he, Nat.add_mod_right, Nat.mod_eq_of_lt (by omega)]
  refine ⟨⟨?_, ?_⟩, hcl, ⟨by omega, ?_⟩, ?_⟩
  · unfold copyLen
    rw [Nat.mod_eq_of_lt (by decide)]
    omega
  · intro hwb
    have := hwb.2
    unfold termIdx at this
    rw [Nat.mod_eq_of_lt (by decide)] at this
    omega
  · show termIdx b < b
    have ht : termIdx b = copyLen b := rfl
    rw [ht, hcl]
    omega
  · intro src
    constructor
    · rw [spAfter, strncpyBuf, hcl, List.append_assoc]
    · rw [spAfter, strncpyBuf, hcl]
      simp only [List.length_append, List.length_take, List.length_replicate,
        List.length_cons, List.length_nil]
      omega

/-- Witness for C10 at `bufsize = 3`. -/
theorem remove_copy_bounds_witness :
    (copyLen 0 = sizeTMod - 1 ∧ ¬ writesInBounds 0) ∧
    copyLen 3 = 3 - 1 ∧
    writesInBounds 3 ∧
    ∀ src : List Nat,
      spAfter src 3 = src.take (3 - 1) ++ List.replicate (3 - 1 - src.length) 0 ++ [0] ∧
      (spAfter src 3).length = 3 :=
  remove_copy_bounds 3 (by decide) (by decide)

theorem merge_perm (c : α → α → Int) : ∀ a b : List α, (merge c a b).Perm (a ++ b)
  | [], b => by simp [merge]
  | x :: as, [] => by simp [merge]
  | x :: as, y :: bs => by
    rw [merge]
    split
    · exact ((merge_perm c as (y :: bs)).cons x)
    · exact ((merge_perm c (x :: as) bs).cons y).trans List.perm_middle.symm
termination_by a b => a.length + b.length

theorem merge_head_cases (c : α → α → Int) :
    ∀ a b : List α, (merge c a b).head? = a.head? ∨ (merge c a b).head? = b.head?
  | [], b => Or.inr (by simp [merge])
  | _ :: _, [] => Or.inl (by simp [merge])
  | x :: as, y :: bs => by
    by_cases h : c x y ≤ 0
    · left; simp [merge, h]
    · right; simp [merge, h]

theorem merge_chain (c : α → α → Int) (le' P : α → α → Prop)
    (hA1 : ∀ x y, c x y ≤ 0 → P x y → le' x y)
    (hA2 : ∀ x y, ¬ c x y ≤ 0 → le' y x) :
    ∀ a b : List α, List.Chain' le' a → List.Chain' le' b → SepL P a b →
      List.Chain' le' (merge c a b)
  | [], b, _, hb, _ => by simpa [merge] using hb
  | x :: as, [], ha, _, _ => by simpa [merge] using ha
  | x :: as, y :: bs, ha, hb, hsep => by
    by_cases h : c x y ≤ 0
    · have hsep' : SepL P as (y :: bs) := fun u hu v hv =>
        hsep u (List.mem_cons_of_mem x hu) v hv
      have hm := merge_chain c le' P hA1 hA2 as (y :: bs) ha.tail hb hsep'
      have heq : merge c (x :: as) (y :: bs) = x :: merge c as (y :: bs) := by
        simp [merge, h]
      rw [heq, List.chain'_cons']
      refine ⟨?_, hm⟩
      intro z hz
      rcases merge_head_cases c as (y :: bs) with hc | hc
      · rw [hc] at hz
        match as, hz with
        | x2 :: as2, hz =>
          simp only [List.head?_cons, Option.mem_def, Option.some.injEq] at hz
          subst hz
          exact (List.chain'_cons.1 ha).1
      · rw [hc] at hz
        simp only [List.head?_cons, Option.mem_def, Option.some.injEq] at hz
        subst hz
        exact hA1 x y h (hsep x (List.mem_cons_self _ _) y (List.mem_cons_self _ _))
    · have hsep' : SepL P (x :: as) bs := fun u hu v hv =>
        hsep u hu v (List.mem_cons_of_mem y hv)
      have hm := merge_chain c le' P hA1 hA2 (x :: as) bs ha hb.tail hsep'
      have heq : merge c (x :: as) (y :: bs) = y :: merge c (x :: as) bs := by
        simp [merge, h]
      rw [heq, List.chain'_cons']
      refine ⟨?_, hm⟩
      intro z hz
      rcases merge_head_cases c (x :: as) bs with hc | hc
      · rw [hc] at hz
        simp only [List.head?_cons, Option.mem_def, Option.some.injEq] at hz
        subst hz
        exact hA2 x y h
      · rw [hc] at hz
        match bs, hz with
        | y2 :: bs2, hz =>
          simp only [List.head?_cons, Option.mem_def, Option.some.injEq] at hz
          subst hz
          exact (List.chain'_cons.1 hb).1
termination_by a b => a.length + b.length

theorem mergeCollapse_cons (c : α → α → Int) (bits : Nat) (r : List α)
    (rest : List (List α)) :
    mergeCollapse c bits (r :: rest) =
      if bits % 2 = 1 then r :: mergeCollapse c (bits / 2) rest
      else if bits = 0 then r :: rest
      else
        match rest with
        | b :: rest2 => merge c b r :: rest2
        | [] => [r] := by
  rw [mergeCollapse.eq_def]

theorem mergeCollapse_flatten_perm (c : α → α → Int) :
    ∀ (bits : Nat) (pending : List (List α)),
      ((mergeCollapse c bits pending).flatten).Perm pending.flatten
  | _, [] => by simp [mergeCollapse]
  | bits, r :: rest => by
    rw [mergeCollapse_cons]
    split
    · simp only [List.flatten_cons]
      exact (mergeCollapse_flatten_perm c (bits / 2) rest).append_left r
    · split
      · exact .refl _
      · cases rest with
        | nil => exact .refl _
        | cons b rest2 =>
          simp only [List.flatten_cons]
          have h1 := (merge_perm c b r).append_right rest2.flatten
          refine h1.trans ?_
          have h2 := (@List.perm_append_comm _ b r).append_right rest2.flatten
          refine h2.trans ?_
          rw [List.append_assoc]

theorem mergeCollapse_inv (c : α → α → Int) (le' P : α → α → Prop)
    (hA1 : ∀ x y, c x y ≤ 0 → P x y → le' x y)
    (hA2 : ∀ x y, ¬ c x y ≤ 0 → le' y x) :
    ∀ (bits : Nat) (pending : List (List α)),
      StackInv le' P pending → StackInv le' P (mergeCollapse c bits pending)
  | _, [], hinv => by simpa [mergeCollapse] using hinv
  | bits, r :: rest, hinv => by
    obtain ⟨hchains, hpair⟩ := hinv
    rw [mergeCollapse_cons]
    split
    · have hIH := mergeCollapse_inv c le' P hA1 hA2 (bits / 2) rest
        ⟨fun r' hr' => hchains r' (List.mem_cons_of_mem r hr'), hpair.of_cons⟩
      obtain ⟨hc2, hp2⟩ := hIH
      refine ⟨?_, ?_⟩
      · intro r' hr'
        rcases List.mem_cons.1 hr' with rfl | hr'
        · exact hchains r' (List.mem_cons_self _ _)
        · exact hc2 r' hr'
      · rw [List.pairwise_cons]
        refine ⟨?_, hp2⟩
        intro r' hr'
        intro u hu v hv
        have humem : u ∈ rest.flatten :=
          (mergeCollapse_flatten_perm c (bits / 2) rest).mem_iff.1
            (List.mem_flatten_of_mem hr' hu)
        obtain ⟨r'', hr'', hu'⟩ := List.mem_flatten.1 humem
        exact (List.pairwise_cons.1 hpair).1 r'' hr'' u hu' v hv
    · split
      · exact ⟨hchains, hpair⟩
      · cases rest with
        | nil =>
          refine ⟨?_, ?_⟩
          · intro r' hr'
            rcases List.mem_cons.1 hr' with rfl | hr'
            · exact hchains r' (List.mem_cons_self _ _)
            · simp at hr'
          · exact List.pairwise_singleton _ _
        | cons b rest2 =>
          have hsepbr : SepL P b r := (List.pairwise_cons.1 hpair).1 b (List.mem_cons_self _ _)
          have hcb : List.Chain' le' b :=
            hchains b (List.mem_cons_of_mem r (List.mem_cons_self _ _))
          have hcr : List.Chain' le' r := hchains r (List.mem_cons_self _ _)
          refine ⟨?_, ?_⟩
          · intro r' hr'
            rcases List.mem_cons.1 hr' with rfl | hr'
            · exact merge_chain c le' P hA1 hA2 b r hcb hcr hsepbr
            · exact hchains r'
                (List.mem_cons_of_mem r (List.mem_cons_of_mem b hr'))
          · rw [List.pairwise_cons]
            constructor
            · intro r' hr' u hu v hv
              have hv' : v ∈ b ++ r := (merge_perm c b r).mem_iff.1 hv
              have hpb : SepL P r' b :=
                (List.pairwise_cons.1 (List.pairwise_cons.1 hpair).2).1 r' hr'
              have hpr : SepL P r' r :=
                (List.pairwise_cons.1 hpair).1 r' (List.mem_cons_of_mem b hr')
              rcases List.mem_append.1 hv' with hv' | hv'
              · exact hpb u hu v hv'
              · exact hpr u hu v hv'
            · exact (List.pairwise_cons.1 (List.pairwise_cons.1 hpair).2).2

theorem sortLoop_flatten_perm (c : α → α → Int) :
    ∀ (l : List α) (pending : List (List α)) (count : Nat),
      ((sortLoop c l pending count).flatten).Perm (pending.flatten ++ l)
  | [], pending, _ => by simp [sortLoop]
  | x :: rest, pending, count => by
    rw [sortLoop]
    have h1 := sortLoop_flatten_perm c rest ([x] :: mergeCollapse c count pending) (count + 1)
    refine h1.trans ?_
    simp only [List.flatten_cons, List.singleton_append]
    have h2 := (mergeCollapse_flatten_perm c count pending).append_right rest
    exact (h2.cons x).trans List.perm_middle.symm

theorem sortLoop_inv (c : α → α → Int) (le' P : α → α → Prop)
    (hA1 : ∀ x y, c x y ≤ 0 → P x y → le' x y)
    (hA2 : ∀ x y, ¬ c x y ≤ 0 → le' y x) :
    ∀ (l : List α) (pending : List (List α)) (count : Nat),
      StackInv le' P pending → SepL P pending.flatten l → List.Pairwise P l →
      StackInv le' P (sortLoop c l pending count)
  | [], pending, _, hinv, _, _ => by simpa [sortLoop] using hinv
  | x :: rest, pending, count, hinv, hsep, hP => by
    rw [sortLoop]
    have hcol := mergeCollapse_inv c le' P hA1 hA2 count pending hinv
    obtain ⟨hc2, hp2⟩ := hcol
    apply sortLoop_inv c le' P hA1 hA2 rest _ (count + 1)
    · refine ⟨?_, ?_⟩
      · intro r' hr'
        rcases List.mem_cons.1 hr' with rfl | hr'
        · exact List.chain'_singleton x
        · exact hc2 r' hr'
      · rw [List.pairwise_cons]
        refine ⟨?_, hp2⟩
        intro r' hr' u hu v hv
        simp only [List.mem_singleton] at hv
        subst hv
        have humem : u ∈ pending.flatten :=
          (mergeCollapse_flatten_perm c count pending).mem_iff.1
            (List.mem_flatten_of_mem hr' hu)
        exact hsep u humem v (List.mem_cons_self _ _)
    · intro u hu v hv
      simp only [List.flatten_cons, List.singleton_append, List.mem_cons] at hu
      rcases hu with rfl | hu
      · exact (List.pairwise_cons.1 hP).1 v hv
      · have humem : u ∈ pending.flatten :=
          (mergeCollapse_flatten_perm c count pending).mem_iff.1 hu
        exact hsep u humem v (List.mem_cons_of_mem x hv)
    · exact hP.of_cons

theorem mergeAllGo_perm (c : α → α → Int) :
    ∀ (acc : List α) (runs : List (List α)),
      (mergeAllGo c acc runs).Perm (acc ++ runs.flatten)
  | acc, [] => by simp [mergeAllGo]
  | acc, r :: rest => by
    rw [mergeAllGo]
    have h1 := mergeAllGo_perm c (merge c r acc) rest
    refine h1.trans ?_
    have h2 := (merge_perm c r acc).append_right rest.flatten
    refine h2.trans ?_
    simp only [List.flatten_cons]
    have h3 := (@List.perm_append_comm _ r acc).append_right rest.flatten
    refine h3.trans ?_
    rw [List.append_assoc]

theorem mergeAllGo_chain (c : α → α → Int) (le' P : α → α → Prop)
    (hA1 : ∀ x y, c x y ≤ 0 → P x y → le' x y)
    (hA2 : ∀ x y, ¬ c x y ≤ 0 → le' y x) :
    ∀ (acc : List α) (runs : List (List α)),
      List.Chain' le' acc → StackInv le' P runs → (∀ r ∈ runs, SepL P r acc) →
      List.Chain' le' (mergeAllGo c acc runs)
  | acc, [], hacc, _, _ => by simpa [mergeAllGo] using hacc
  | acc, r :: rest, hacc, hinv, hsep => by
    obtain ⟨hchains, hpair⟩ := hinv
    rw [mergeAllGo]
    apply mergeAllGo_chain c le' P hA1 hA2 (merge c r acc) rest
    · exact merge_chain c le' P hA1 hA2 r acc (hchains r (List.mem_cons_self _ _))
        hacc (hsep r (List.mem_cons_self _ _))
    · exact ⟨fun r' hr' => hchains r' (List.mem_cons_of_mem r hr'), hpair.of_cons⟩
    · intro r' hr' u hu v hv
      have hv' : v ∈ r ++ acc := (merge_perm c r acc).mem_iff.1 hv
      rcases List.mem_append.1 hv' with hv' | hv'
      · exact (List.pairwise_cons.1 hpair).1 r' hr' u hu v hv'
      · exact hsep r' (List.mem_cons_of_mem r hr') u hu v hv'

theorem q_sort_perm (c : α → α → Int) : ∀ l : List α, (q_sort c l).Perm l
  | [] => .refl _
  | [x] => .refl _
  | x :: y :: rest => by
    rw [q_sort]
    have hsl := sortLoop_flatten_perm c (x :: y :: rest) [] 0
    cases hE : sortLoop c (x :: y :: rest) [] 0 with
    | nil =>
      rw [hE] at hsl
      have := hsl.length_eq
      simp at this
    | cons r prest =>
      rw [hE] at hsl
      have h1 := mergeAllGo_perm c r prest
      refine h1.trans ?_
      simpa using hsl

theorem q_sort_chain (c : α → α → Int) (le' P : α → α → Prop)
    (hA1 : ∀ x y, c x y ≤ 0 → P x y → le' x y)
    (hA2 : ∀ x y, ¬ c x y ≤ 0 → le' y x)
    (l : List α) (hP : List.Pairwise P l) :
    List.Chain' le' (q_sort c l) := by
  match l with
  | [] => simp [q_sort]
  | [x] => simp [q_sort]
  | x :: y :: rest =>
    rw [q_sort]
    have hinv := sortLoop_inv c le' P hA1 hA2 (x :: y :: rest) [] 0
      ⟨by simp, by simp⟩ (by intro u hu; simp at hu) hP
    cases hE : sortLoop c (x :: y :: rest) [] 0 with
    | nil => simp
    | cons r prest =>
      rw [hE] at hinv
      obtain ⟨hc, hp⟩ := hinv
      apply mergeAllGo_chain c le' P hA1 hA2 r prest (hc r (List.mem_cons_self _ _))
      · exact ⟨fun r' hr' => hc r' (List.mem_cons_of_mem r hr'), hp.of_cons⟩
      · exact (List.pairwise_cons.1 hp).1

theorem pairwise_true (l : List α) : List.Pairwise (fun _ _ => True) l := by
  induction l with
  | nil => exact .nil
  | cons a t ih => exact .cons (fun _ _ => trivial) ih

/-- C1: after `q_sort` with the byte-wise comparison `strcmp`, every
adjacent pair `(a, b)` in head-to-tail order satisfies `strcmp a b ≤ 0`,
and the multiset of stored values is unchanged (the result is a permutation
of the input), for every queue of `n ≥ 0` strings. -/
theorem sort_sorted_perm (l : List V) :
    List.Chain' (fun a b => strcmp a b ≤ 0) (q_sort strcmp l) ∧
    (q_sort strcmp l).Perm l := by
  constructor
  · apply q_sort_chain strcmp _ (fun _ _ => True) ?_ ?_ l (pairwise_true l)
    · intro x y h _
      exact h
    · intro x y h
      exact strcmp_le_of_not_le h
  · exact q_sort_perm strcmp l

theorem pairwise_fst_lt_enum (l : List V) :
    List.Pairwise (fun a b : Nat × V => a.1 < b.1) l.enum := by
  have h1 : List.Pairwise (fun a b => a < b) (l.enum.map Prod.fst) := by
    rw [List.enum_map_fst]
    exact List.pairwise_lt_range l.length
  exact List.pairwise_map.1 h1

/-- C9: `q_sort` is stable.  Tagging each element with its original position
(`List.enum`, position first) and sorting with the comparison `cmpSnd` that
inspects only the stored value — exactly what `cmp` does on nodes — any two
elements of the output with equal values appear in increasing original
position: both `merge` and `merge_final` take from the earlier run on
`cmp(a,b) <= 0`. -/
theorem sort_stable (l : List V) :
    List.Pairwise (fun a b : Nat × V => strcmp a.2 b.2 = 0 → a.1 < b.1)
      (q_sort cmpSnd l.enum) := by
  have hchain : List.Chain' (fun a b : Nat × V =>
      strcmp a.2 b.2 < 0 ∨ (strcmp a.2 b.2 = 0 ∧ a.1 ≤ b.1)) (q_sort cmpSnd l.enum) := by
    apply q_sort_chain cmpSnd _ (fun a b : Nat × V => a.1 < b.1) ?_ ?_ _
      (pairwise_fst_lt_enum l)
    · intro x y h hP
      unfold cmpSnd at h
      by_cases h0 : strcmp x.2 y.2 = 0
      · exact Or.inr ⟨h0, Nat.le_of_lt hP⟩
      · exact Or.inl (by omega)
    · intro x y h
      unfold cmpSnd at h
      have hsw := strcmp_swap x.2 y.2
      exact Or.inl (by omega)
  haveI : IsTrans (Nat × V) (fun a b : Nat × V =>
      strcmp a.2 b.2 < 0 ∨ (strcmp a.2 b.2 = 0 ∧ a.1 ≤ b.1)) := by
    constructor
    intro a b c hab hbc
    rcases hab with hab | ⟨hab0, hab1⟩
    · rcases hbc with hbc | ⟨hbc0, hbc1⟩
      · exact Or.inl (strcmp_lt_trans _ _ _ hab hbc)
      · have hbc' : b.2 = c.2 := (strcmp_eq_zero_iff _ _).1 hbc0
        exact Or.inl (hbc' ▸ hab)
    · have hab' : a.2 = b.2 := (strcmp_eq_zero_iff _ _).1 hab0
      rcases hbc with hbc | ⟨hbc0, hbc1⟩
      · exact Or.inl (hab' ▸ hbc)
      · exact Or.inr ⟨hab' ▸ hbc0, Nat.le_trans hab1 hbc1⟩
  have hpw := List.chain'_iff_pairwise.1 hchain
  have hne : List.Pairwise (fun a b : Nat × V => a.1 ≠ b.1) (q_sort cmpSnd l.enum) := by
    refine ((q_sort_perm cmpSnd l.enum).pairwise_iff ?_).2
      ((pairwise_fst_lt_enum l).imp ?_)
    · intro x y hxy
      exact hxy.symm
    · intro a b hab
      exact Nat.ne_of_lt hab
  refine (hpw.and hne).imp ?_
  intro a b hab h0
  rcases hab with ⟨hlt | ⟨heq, hle1⟩, hne'⟩
  · omega
  · exact Nat.lt_of_le_of_ne hle1 hne'

theorem perm_getElem_cons_eraseIdx (l : List α) (i : Nat) (hi : i < l.length) :
    l.Perm (l.get ⟨i, hi⟩ :: l.eraseIdx i) := by
  conv_lhs => rw [← List.take_append_drop i l, List.drop_eq_getElem_cons hi]
  rw [List.eraseIdx_eq_take_drop_succ]
  exact List.perm_middle

theorem q_shuffle_go_perm (r : Nat → Nat) :
    ∀ (len k : Nat) (uns placed : List α),
      (q_shuffle_go r k len uns placed).Perm (uns ++ placed)
  | 0, _, uns, placed => by simp [q_shuffle_go]
  | 1, _, uns, placed => by simp [q_shuffle_go]
  | len + 2, k, uns, placed => by
    cases hE : uns[r k % (len + 2)]? with
    | none => simp [q_shuffle_go, hE]
    | some node =>
      have hi : r k % (len + 2) < uns.length := by
        by_contra hge
        rw [List.getElem?_eq_none (Nat.le_of_not_lt hge)] at hE
        cases hE
      have hnode : node = uns.get ⟨r k % (len + 2), hi⟩ := by
        rw [List.getElem?_eq_getElem hi] at hE
        cases hE
        simp
      have heq : q_shuffle_go r k (len + 2) uns placed
          = q_shuffle_go r (k + 1) (len + 1)
              (uns.eraseIdx (r k % (len + 2))) (node :: placed) := by
        simp [q_shuffle_go, hE]
      rw [heq]
      have hIH := q_shuffle_go_perm r (len + 1) (k + 1)
        (uns.eraseIdx (r k % (len + 2))) (node :: placed)
      refine hIH.trans ?_
      have hcons := perm_getElem_cons_eraseIdx uns (r k % (len + 2)) hi
      refine List.perm_middle.trans ?_
      rw [hnode]
      exact hcons.symm.append_right placed
termination_by len k uns placed => len

theorem q_shuffle_perm (r : Nat → Nat) : ∀ l : List α, (q_shuffle r l).Perm l
  | [] => .refl _
  | [x] => .refl _
  | x :: y :: rest => by
    have h := q_shuffle_go_perm r (x :: y :: rest).length 0 (x :: y :: rest) []
    simpa [q_shuffle] using h

/-- C5 (counterexample): the claim says the drawn index lies in the
half-open interval `[0, len-1)`, so `len-1` is never drawn and on a
2-element queue the first (only) step must detach index 0, always producing
the swapped queue.  With `rand()` returning 1 the code draws
`1 % 2 = 1 = len - 1` and detaches the *last* element, leaving the queue in
its original order, while the spec-modelled step (`q_shuffle_spec`, index
`r k % (len-1)`) swaps.  -/
theorem shuffle_range_counterexample :
    q_shuffle (fun _ => 1) ([[97], [98]] : List V) = [[97], [98]] ∧
    q_shuffle_spec (fun _ => 1) ([[97], [98]] : List V) = [[98], [97]] ∧
    q_shuffle (fun _ => 1) ([[97], [98]] : List V)
      ≠ q_shuffle_spec (fun _ => 1) ([[97], [98]] : List V) := by
  refine ⟨by decide, by decide, by decide⟩

/-- C5 (amended): in each `q_shuffle` step with remaining length
`len = len₀+2 ≥ 2`, the detached node is the one at index `r k % len`,
which ranges over the whole of `[0, len)` — the index `len-1` included —
counting from the head of the unshuffled region; the node is prepended to
the growing shuffled-tail region (inserted immediately before the
previously placed node), and the final result is a permutation of the
queue. -/
theorem shuffle_step_amended (r : Nat → Nat) (k len : Nat) (uns placed : List V)
    (h : uns.length = len + 2) :
    r k % (len + 2) < len + 2 ∧
    (∃ node : V, uns[r k % (len + 2)]? = some node ∧
      q_shuffle_go r k (len + 2) uns placed
        = q_shuffle_go r (k + 1) (len + 1)
            (uns.eraseIdx (r k % (len + 2))) (node :: placed)) ∧
    ∀ l : List V, (q_shuffle r l).Perm l := by
  have hlt : r k % (len + 2) < len + 2 := Nat.mod_lt _ (by omega)
  have hlen : r k % (len + 2) < uns.length := by omega
  refine ⟨hlt, ⟨uns.get ⟨r k % (len + 2), hlen⟩, ?_, ?_⟩, q_shuffle_perm r⟩
  · rw [List.getElem?_eq_getElem hlen]
    simp
  · simp [q_shuffle_go, List.getElem?_eq_getElem hlen]

/-- Witness for C5's amended step characterisation at a concrete state. -/
theorem shuffle_step_amended_witness :
    (3 : Nat) % 3 < 3 ∧
    (∃ node : V, ([[10], [11], [12]] : List V)[(3 : Nat) % 3]? = some node ∧
      q_shuffle_go (fun _ => 3) 0 3 ([[10], [11], [12]] : List V) []
        = q_shuffle_go (fun _ => 3) 1 2
            (([[10], [11], [12]] : List V).eraseIdx (3 % 3)) (node :: [])) ∧
    ∀ l : List V, (q_shuffle (fun _ => 3) l).Perm l :=
  shuffle_step_amended (fun _ => 3) 0 1 [[10], [11], [12]] [] (by decide)

theorem dropRun_sublist (c : α → α → Int) (x : α) :
    ∀ l : List α, (dropRun c x l).Sublist l
  | [] => .refl _
  | y :: rest => by
    simp only [dropRun]
    split
    · exact (dropRun_sublist c x rest).trans (List.sublist_cons_self y rest)
    · exact .refl _

theorem q_delete_dup_go_sublist (c : α → α → Int) :
    ∀ (n : Nat) (l : List α), l.length ≤ n → (q_delete_dup_go c l).Sublist l
  | _, [], _ => by simp [q_delete_dup_go]
  | _, [x], _ => by simp [q_delete_dup_go]
  | 0, x :: y :: rest, h => by simp at h
  | n + 1, x :: y :: rest, h => by
    rw [q_delete_dup_go]
    split
    · have hd := dropRun_sublist c x (y :: rest)
      have hlen : (dropRun c x (y :: rest)).length ≤ n := by
        have h2 := hd.length_le
        simp only [List.length_cons] at h h2 ⊢
        omega
      exact ((q_delete_dup_go_sublist c n _ hlen).trans hd).trans
        (List.sublist_cons_self x (y :: rest))
    · have hlen : (y :: rest).length ≤ n := by
        simp only [List.length_cons] at h ⊢
        omega
      exact (q_delete_dup_go_sublist c n (y :: rest) hlen).cons₂ x

theorem dropRun_strcmp_eq (x : V) :
    ∀ l : List V, ∃ k : Nat, l = List.replicate k x ++ dropRun strcmp x l ∧
      ∀ z : V, (dropRun strcmp x l).head? = some z → strcmp x z ≠ 0
  | [] => ⟨0, by simp [dropRun], by simp [dropRun]⟩
  | y :: rest => by
    by_cases h : strcmp x y = 0
    · have hxy : x = y := (strcmp_eq_zero_iff x y).1 h
      subst hxy
      obtain ⟨k, hk, hh⟩ := dropRun_strcmp_eq x rest
      have hdr : dropRun strcmp x (x :: rest) = dropRun strcmp x rest := by
        simp [dropRun, strcmp_self]
      refine ⟨k + 1, ?_, ?_⟩
      · rw [hdr, List.replicate_succ, List.cons_append, ← hk]
      · rw [hdr]
        exact hh
    · refine ⟨0, ?_, ?_⟩
      · simp [dropRun, h]
      · intro z hz
        simp only [dropRun, if_neg h, List.head?_cons, Option.some.injEq] at hz
        subst hz
        exact h

theorem count_deq (v : V) (l : List V) :
    @List.count V instBEqOfDecidableEq v l = l.count v := by
  induction l with
  | nil => rfl
  | cons a t ih =>
    rw [@List.count_cons V instBEqOfDecidableEq v a t, List.count_cons, ih]
    by_cases h : a = v <;> simp [h]

theorem dedup_sorted_eq_filter :
    ∀ (n : Nat) (l : List V), l.length ≤ n →
      List.Chain' (fun a b => strcmp a b ≤ 0) l →
      q_delete_dup_go strcmp l = l.filter (fun v => l.count v == 1)
  | _, [], _, _ => by simp [q_delete_dup_go]
  | _, [x], _, _ => by simp [q_delete_dup_go, List.count_cons]
  | 0, x :: y :: rest, h, _ => by simp at h
  | n + 1, x :: y :: rest, h, hch => by
    haveI : IsTrans V (fun a b => strcmp a b ≤ 0) := ⟨fun a b c => strcmp_le_trans⟩
    have hpw := List.chain'_iff_pairwise.1 hch
    rw [q_delete_dup_go]
    by_cases hxy : strcmp x y = 0
    · rw [if_pos hxy]
      obtain ⟨k, hk, hh⟩ := dropRun_strcmp_eq x (y :: rest)
      set m := dropRun strcmp x (y :: rest) with hm
      have hk1 : 1 ≤ k := by
        by_contra hk0
        have hk0' : k = 0 := by omega
        rw [hk0'] at hk
        simp only [List.replicate_zero, List.nil_append] at hk
        have hhead : m.head? = some y := by
          rw [← hk]
          simp
        exact (hh y hhead) hxy
      have hL : x :: y :: rest = List.replicate (k + 1) x ++ m := by
        rw [List.replicate_succ, List.cons_append, ← hk]
      have hxm : ∀ w ∈ m, strcmp x w < 0 := by
        intro w hw
        cases hm2 : m with
        | nil =>
          rw [hm2] at hw
          simp at hw
        | cons z m2 =>
          have hz0 : strcmp x z ≠ 0 := hh z (by rw [hm2]; rfl)
          have hzmem : z ∈ y :: rest := by
            have : z ∈ List.replicate k x ++ m := by
              rw [hm2]
              exact List.mem_append_right _ (List.mem_cons_self _ _)
            rw [← hk] at this
            exact this
          have hxz : strcmp x z ≤ 0 := (List.pairwise_cons.1 hpw).1 z hzmem
          have hxz' : strcmp x z < 0 := by omega
          rw [hm2] at hw
          rcases List.mem_cons.1 hw with rfl | hw2
          · exact hxz'
          · have hchm : List.Chain' (fun a b => strcmp a b ≤ 0) (z :: m2) := by
              have hch2 := hch
              rw [hL, hm2] at hch2
              exact (List.chain'_append.1 hch2).2.1
            have hzw : strcmp z w ≤ 0 :=
              (List.pairwise_cons.1 (List.chain'_iff_pairwise.1 hchm)).1 w hw2
            exact strcmp_lt_of_lt_of_le hxz' hzw
      have hxnotm : x ∉ m := by
        intro hx
        have hlt := hxm x hx
        rw [strcmp_self] at hlt
        omega
      have hcount : ∀ v ∈ m, (x :: y :: rest).count v = m.count v := by
        intro v hv
        have hvne : (x == v) = false := by
          simp only [beq_eq_false_iff_ne, ne_eq]
          intro hveq
          rw [hveq] at hxnotm
          exact hxnotm hv
        rw [hL, List.count_append, List.count_replicate, hvne]
        simp
      have hcx2 : 2 ≤ (x :: y :: rest).count x := by
        rw [hL, List.count_append, List.count_replicate]
        simp only [beq_self_eq_true, if_true]
        omega
      have hsplit : (x :: y :: rest).filter (fun v => (x :: y :: rest).count v == 1)
          = (List.replicate (k + 1) x).filter (fun v => (x :: y :: rest).count v == 1)
            ++ m.filter (fun v => (x :: y :: rest).count v == 1) := by
        rw [← List.filter_append]
        set p : V → Bool := fun v => (x :: y :: rest).count v == 1 with hp
        rw [← hL]
      rw [hsplit]
      have hfr : (List.replicate (k + 1) x).filter
          (fun v => (x :: y :: rest).count v == 1) = [] := by
        apply List.filter_replicate_of_neg
        simp only [beq_iff_eq]
        omega
      rw [hfr, List.nil_append]
      have hfc : m.filter (fun v => (x :: y :: rest).count v == 1)
          = m.filter (fun v => m.count v == 1) := by
        apply List.filter_congr
        intro v hv
        rw [hcount v hv]
      rw [hfc]
      have hmlen : m.length ≤ n := by
        have hsub := dropRun_sublist strcmp x (y :: rest)
        have hle := hsub.length_le
        rw [← hm] at hle
        simp only [List.length_cons] at h hle
        omega
      have hchm : List.Chain' (fun a b => strcmp a b ≤ 0) m := by
        have hch2 := hch
        rw [hL] at hch2
        exact (List.chain'_append.1 hch2).2.1
      exact dedup_sorted_eq_filter n m hmlen hchm
    · rw [if_neg hxy]
      have hxylt : strcmp x y < 0 := by
        have hle : strcmp x y ≤ 0 := (List.chain'_cons.1 hch).1
        omega
      have hxnot : x ∉ y :: rest := by
        intro hx
        rcases List.mem_cons.1 hx with rfl | hx2
        · rw [strcmp_self] at hxylt
          omega
        · have hyx : strcmp y x ≤ 0 :=
            (List.pairwise_cons.1 (List.chain'_iff_pairwise.1 hch.tail)).1 x hx2
          have hxx := strcmp_lt_of_lt_of_le hxylt hyx
          rw [strcmp_self] at hxx
          omega
      have hcx1 : (x :: y :: rest).count x = 1 := by
        rw [List.count_cons_self, List.count_eq_zero.2 hxnot]
      have hcount : ∀ v ∈ y :: rest, (x :: y :: rest).count v = (y :: rest).count v := by
        intro v hv
        have hvne : (x == v) = false := by
          simp only [beq_eq_false_iff_ne, ne_eq]
          intro hveq
          rw [← hveq] at hv
          exact hxnot hv
        rw [List.count_cons, hvne]
        simp
      conv_rhs => rw [List.filter_cons]
      have hpx : ((x :: y :: rest).count x == 1) = true := by
        simp [hcx1]
      rw [hpx]
      simp only [if_true]
      have hfc : (y :: rest).filter (fun v => (x :: y :: rest).count v == 1)
          = (y :: rest).filter (fun v => (y :: rest).count v == 1) := by
        apply List.filter_congr
        intro v hv
        rw [hcount v hv]
      rw [hfc]
      have hlen2 : (y :: rest).length ≤ n := by
        simp only [List.length_cons] at h ⊢
        omega
      rw [dedup_sorted_eq_filter n (y :: rest) hlen2 hch.tail]

/-- C3: on a queue sorted ascending by `strcmp`, `q_delete_dup` leaves no
two adjacent elements comparing equal, keeps every value that occurred
exactly once (exactly once), removes every value that occurred two or more
times entirely, returns `true` for every non-`NULL` queue (empty and
one-element included) and `false` exactly for the `NULL` queue. -/
theorem delete_dup_sorted (l : List V)
    (hs : List.Chain' (fun a b => strcmp a b ≤ 0) l) :
    List.Chain' (fun a b => strcmp a b ≠ 0) (q_delete_dup_go strcmp l) ∧
    (∀ v : V, l.count v = 1 → (q_delete_dup_go strcmp l).count v = 1) ∧
    (∀ v : V, 2 ≤ l.count v → (q_delete_dup_go strcmp l).count v = 0) ∧
    (∀ l' : List V, (q_delete_dup strcmp (some l')).1 = true) ∧
    (q_delete_dup strcmp (none : Option (List V))).1 = false := by
  have hfil := dedup_sorted_eq_filter l.length l (Nat.le_refl _) hs
  refine ⟨?_, ?_, ?_, fun l' => rfl, rfl⟩
  · have hcount : ∀ v : V, (q_delete_dup_go strcmp l).count v ≤ 1 := by
      intro v
      rw [hfil]
      by_cases hv : l.count v = 1
      · rw [List.count_filter (by simp [hv])]
        omega
      · rw [List.count_eq_zero.2 ?_]
        · omega
        · intro hmem
          have hp := (List.mem_filter.1 hmem).2
          simp only [beq_iff_eq] at hp
          exact hv hp
    have hnd : (q_delete_dup_go strcmp l).Nodup :=
      List.nodup_iff_count_le_one.2 (fun v => by rw [count_deq]; exact hcount v)
    have hpne : List.Pairwise (fun a b : V => a ≠ b) (q_delete_dup_go strcmp l) := hnd
    refine List.Pairwise.chain' (hpne.imp ?_)
    intro a b hne h0
    exact hne ((strcmp_eq_zero_iff a b).1 h0)
  · intro v hv
    rw [hfil, List.count_filter (by simp [hv])]
    exact hv
  · intro v hv
    rw [hfil]
    rw [List.count_eq_zero.2 ?_]
    intro hmem
    have hp := (List.mem_filter.1 hmem).2
    simp only [beq_iff_eq] at hp
    omega

/-- Witness for C3 on the sorted queue `["a","a","b"]`. -/
theorem delete_dup_sorted_witness :
    List.Chain' (fun a b => strcmp a b ≠ 0)
      (q_delete_dup_go strcmp ([[97], [97], [98]] : List V)) ∧
    (∀ v : V, ([[97], [97], [98]] : List V).count v = 1 →
      (q_delete_dup_go strcmp ([[97], [97], [98]] : List V)).count v = 1) ∧
    (∀ v : V, 2 ≤ ([[97], [97], [98]] : List V).count v →
      (q_delete_dup_go strcmp ([[97], [97], [98]] : List V)).count v = 0) ∧
    (∀ l' : List V, (q_delete_dup strcmp (some l')).1 = true) ∧
    (q_delete_dup strcmp (none : Option (List V))).1 = false :=
  delete_dup_sorted [[97], [97], [98]]
    (List.chain'_cons.2 ⟨by decide, List.chain'_cons.2 ⟨by decide, List.chain'_singleton _⟩⟩)

theorem mod_succ_pred (len i : Nat) (h0 : 0 < len) (hi : i < len) :
    ((i + 1) % len + len - 1) % len = i := by
  rcases Nat.lt_or_ge (i + 1) len with h | h
  · rw [Nat.mod_eq_of_lt h]
    have he : i + 1 + len - 1 = i + len := by omega
    rw [he, Nat.add_mod_right, Nat.mod_eq_of_lt hi]
  · have hik : i + 1 = len := by omega
    rw [hik, Nat.mod_self]
    have he : 0 + len - 1 = len - 1 := by omega
    rw [he, Nat.mod_eq_of_lt (by omega)]
    omega

theorem mod_pred_succ (len i : Nat) (h0 : 0 < len) (hi : i < len) :
    ((i + len - 1) % len + 1) % len = i := by
  rcases Nat.eq_zero_or_pos i with rfl | hpos
  · have he : 0 + len - 1 = len - 1 := by omega
    rw [he, Nat.mod_eq_of_lt (show len - 1 < len by omega)]
    have he2 : len - 1 + 1 = len := by omega
    rw [he2, Nat.mod_self]
  · have he : i + len - 1 = (i - 1) + len := by omega
    rw [he, Nat.add_mod_right, Nat.mod_eq_of_lt (show i - 1 < len by omega)]
    have he2 : i - 1 + 1 = i := by omega
    rw [he2, Nat.mod_eq_of_lt hi]

theorem mod_back (len k : Nat) (hk : k + 1 ≤ len) :
    ((len - k) % len + len - 1) % len = len - (k + 1) := by
  rcases Nat.eq_zero_or_pos k with rfl | hpos
  · rw [Nat.sub_zero, Nat.mod_self]
    have he : 0 + len - 1 = len - 1 := by omega
    rw [he, Nat.mod_eq_of_lt (show len - 1 < len by omega)]
  · rw [Nat.mod_eq_of_lt (show len - k < len by omega)]
    have he : len - k + len - 1 = (len - (k + 1)) + len := by omega
    rw [he, Nat.add_mod_right, Nat.mod_eq_of_lt (show len - (k + 1) < len by omega)]

theorem indexOf_get_ring (ring : List Nat) (hN : ring.Nodup) (i : Nat)
    (hi : i < ring.length) :
    ring.indexOf (ring.get ⟨i, hi⟩) = i := by
  have hmem : ring.get ⟨i, hi⟩ ∈ ring := List.get_mem ring i hi
  have hlt : ring.indexOf (ring.get ⟨i, hi⟩) < ring.length :=
    List.indexOf_lt_length.2 hmem
  have heq : ring[ring.indexOf (ring.get ⟨i, hi⟩)] = ring.get ⟨i, hi⟩ :=
    List.getElem_indexOf hlt
  have hgg : ring[ring.indexOf (ring.get ⟨i, hi⟩)] = ring[i] := by
    rw [heq]
    simp [List.get_eq_getElem]
  exact (hN.getElem_inj_iff).1 hgg

theorem ringNext_get (ring : List Nat) (hN : ring.Nodup) (i : Nat)
    (hi : i < ring.length) :
    ringNext ring (ring.get ⟨i, hi⟩)
      = ring.get ⟨(i + 1) % ring.length, Nat.mod_lt _ (by omega)⟩ := by
  have hmod : (i + 1) % ring.length < ring.length := Nat.mod_lt _ (by omega)
  unfold ringNext
  rw [indexOf_get_ring ring hN i hi, List.getD_eq_getElem?_getD,
    List.getElem?_eq_getElem hmod]
  simp

theorem ringPrev_get (ring : List Nat) (hN : ring.Nodup) (i : Nat)
    (hi : i < ring.length) :
    ringPrev ring (ring.get ⟨i, hi⟩)
      = ring.get ⟨(i + ring.length - 1) % ring.length, Nat.mod_lt _ (by omega)⟩ := by
  have hmod : (i + ring.length - 1) % ring.length < ring.length :=
    Nat.mod_lt _ (by omega)
  unfold ringPrev
  rw [indexOf_get_ring ring hN i hi, List.getD_eq_getElem?_getD,
    List.getElem?_eq_getElem hmod]
  simp

theorem get_eq_of_idx_eq (l : List Nat) (i j : Nat) (hi : i < l.length)
    (hj : j < l.length) (h : i = j) : l.get ⟨i, hi⟩ = l.get ⟨j, hj⟩ := by
  cases h
  rfl

theorem ringPrev_ringNext (ring : List Nat) (hN : ring.Nodup) (x : Nat)
    (hx : x ∈ ring) :
    ringPrev ring (ringNext ring x) = x := by
  obtain ⟨⟨i, hi⟩, rfl⟩ := List.mem_iff_get.1 hx
  rw [ringNext_get ring hN i hi, ringPrev_get ring hN _ (Nat.mod_lt _ (by omega))]
  exact get_eq_of_idx_eq ring _ i _ hi (mod_succ_pred ring.length i (by omega) hi)

theorem ringNext_ringPrev (ring : List Nat) (hN : ring.Nodup) (x : Nat)
    (hx : x ∈ ring) :
    ringNext ring (ringPrev ring x) = x := by
  obtain ⟨⟨i, hi⟩, rfl⟩ := List.mem_iff_get.1 hx
  rw [ringPrev_get ring hN i hi, ringNext_get ring hN _ (Nat.mod_lt _ (by omega))]
  exact get_eq_of_idx_eq ring _ i _ hi (mod_pred_succ ring.length i (by omega) hi)

theorem ringNext_iterate (ring : List Nat) (hN : ring.Nodup) (h0 : 0 < ring.length) :
    ∀ k : Nat, (fun y => ringNext ring y)^[k] (ring.get ⟨0, h0⟩)
      = ring.get ⟨k % ring.length, Nat.mod_lt _ h0⟩
  | 0 => by
    rw [Function.iterate_zero_apply]
    exact get_eq_of_idx_eq ring 0 _ h0 (Nat.mod_lt _ h0) (Nat.zero_mod _).symm
  | k + 1 => by
    rw [Function.iterate_succ_apply', ringNext_iterate ring hN h0 k,
      ringNext_get ring hN _ (Nat.mod_lt _ h0)]
    exact get_eq_of_idx_eq ring _ _ (Nat.mod_lt _ h0) (Nat.mod_lt _ h0)
      (Nat.mod_add_mod k ring.length 1)

theorem ringPrev_iterate (ring : List Nat) (hN : ring.Nodup) (h0 : 0 < ring.length) :
    ∀ k : Nat, k ≤ ring.length →
      (fun y => ringPrev ring y)^[k] (ring.get ⟨0, h0⟩)
        = ring.get ⟨(ring.length - k) % ring.length, Nat.mod_lt _ h0⟩
  | 0, _ => by
    rw [Function.iterate_zero_apply]
    refine get_eq_of_idx_eq ring 0 _ h0 (Nat.mod_lt _ h0) ?_
    rw [Nat.sub_zero, Nat.mod_self]
  | k + 1, hk => by
    rw [Function.iterate_succ_apply', ringPrev_iterate ring hN h0 k (by omega),
      ringPrev_get ring hN _ (Nat.mod_lt _ h0)]
    refine get_eq_of_idx_eq ring _ _ (Nat.mod_lt _ h0) (Nat.mod_lt _ h0) ?_
    rw [mod_back ring.length k hk, Nat.mod_eq_of_lt (by omega)]

theorem ringNext_iterate_cons (sent : Nat) (ids : List Nat)
    (hN : (sent :: ids).Nodup) (k : Nat) :
    (fun y => ringNext (sent :: ids) y)^[k] sent
      = (sent :: ids).get ⟨k % (sent :: ids).length, Nat.mod_lt _ (by simp)⟩ :=
  ringNext_iterate (sent :: ids) hN (by simp) k

theorem ringPrev_iterate_cons (sent : Nat) (ids : List Nat)
    (hN : (sent :: ids).Nodup) (k : Nat) (hk : k ≤ (sent :: ids).length) :
    (fun y => ringPrev (sent :: ids) y)^[k] sent
      = (sent :: ids).get
          ⟨((sent :: ids).length - k) % (sent :: ids).length, Nat.mod_lt _ (by simp)⟩ :=
  ringPrev_iterate (sent :: ids) hN (by simp) k hk

theorem RingOK_of_nodup (sent : Nat) (ids : List Nat)
    (hN : (sent :: ids).Nodup) : RingOK sent ids := by
  have hlen : (sent :: ids).length = ids.length + 1 := by simp
  unfold RingOK
  refine ⟨?_, ?_, ?_, ?_, ?_⟩
  · intro x hx
    exact ⟨ringPrev_ringNext _ hN x hx, ringNext_ringPrev _ hN x hx⟩
  · apply List.ext_getElem
    · simp
    · intro i h1 h2
      rw [List.getElem_map, List.getElem_range, ringNext_iterate_cons sent ids hN i]
      have hi : i % (sent :: ids).length = i := Nat.mod_eq_of_lt h2
      simp only [List.get_eq_getElem, hi]
  · rw [ringNext_iterate_cons sent ids hN (ids.length + 1)]
    have hz : (ids.length + 1) % (sent :: ids).length = 0 := by
      rw [hlen, Nat.mod_self]
    simp only [List.get_eq_getElem, hz]
    rfl
  · apply List.ext_getElem
    · simp
    · intro i h1 h2
      rw [List.getElem_map, List.getElem_range]
      have hi : i ≤ (sent :: ids).length := by
        simp only [List.length_map, List.length_range] at h1
        omega
      rw [ringPrev_iterate_cons sent ids hN i hi]
      cases i with
      | zero =>
        have hz : ((sent :: ids).length - 0) % (sent :: ids).length = 0 := by
          rw [Nat.sub_zero, Nat.mod_self]
        simp only [List.get_eq_getElem, hz]
        rfl
      | succ j =>
        have hj : j + 1 ≤ ids.length := by
          simp only [List.length_map, List.length_range] at h1
          omega
        have hidx : ((sent :: ids).length - (j + 1)) % (sent :: ids).length
            = ids.length - j := by
          rw [hlen, Nat.mod_eq_of_lt (by omega)]
          omega
        simp only [List.get_eq_getElem, hidx]
        have hj3 : ids.length - j = (ids.length - 1 - j) + 1 := by omega
        simp only [hj3, List.getElem_cons_succ, List.getElem_reverse]
  · rw [ringPrev_iterate_cons sent ids hN (ids.length + 1) (by omega)]
    have hz : ((sent :: ids).length - (ids.length + 1)) % (sent :: ids).length = 0 := by
      rw [hlen]
      simp
    simp only [List.get_eq_getElem, hz]
    rfl

theorem q_swap_perm : ∀ l : List α, (q_swap l).Perm l
  | [] => .refl _
  | [x] => .refl _
  | x :: y :: rest => by
    rw [q_swap]
    exact (((q_swap_perm rest).cons x).cons y).trans (List.Perm.swap x y rest)

theorem q_delete_mid_list_sublist (l : List α) : (q_delete_mid_list l).Sublist l := by
  unfold q_delete_mid_list
  split
  · exact .refl _
  · exact List.eraseIdx_sublist l _

theorem afterRemoveHead_sublist (l : List α) : (afterRemoveHead l).Sublist l := by
  cases l with
  | nil => exact .refl _
  | cons x rest => exact List.sublist_cons_self x rest

theorem afterRemoveTail_sublist (l : List α) : (afterRemoveTail l).Sublist l := by
  unfold afterRemoveTail q_remove_tail
  cases h : l.getLast? with
  | none => exact .refl _
  | some x => exact List.dropLast_sublist l

theorem q_reverse_perm (l : List α) : (q_reverse l).Perm l := by
  have h : q_reverse l = l.reverse := by simp [q_reverse]
  rw [h]
  exact List.reverse_perm l

theorem nodup_ring_of_perm (sent : Nat) {ids ids' : List Nat}
    (hp : ids'.Perm ids) (hN : (sent :: ids).Nodup) : (sent :: ids').Nodup :=
  ((hp.symm).cons sent).nodup hN

theorem nodup_ring_of_sublist (sent : Nat) {ids ids' : List Nat}
    (hs : ids'.Sublist ids) (hN : (sent :: ids).Nodup) : (sent :: ids').Nodup :=
  (hs.cons₂ sent).nodup hN

/-- C4: after every single operation of the queue engine — insert (a fresh
node at either end), remove (either end), delete-middle, delete-duplicates,
swap-pairs, reverse, sort, shuffle — the sentinel ring over the surviving
node identities satisfies the ring invariant: `n.next.prev = n` and
`n.prev.next = n` for every node, and the forward (resp. backward) `next`
(resp. `prev`) traversal from the sentinel visits every live node exactly
once and returns to the sentinel.  Since every operation preserves the
hypothesis (distinct node identities), the invariant holds after any
sequence of these operations. -/
theorem ring_invariant_ops (sent : Nat) (l : List (Nat × V)) (fresh : Nat) (s : V)
    (r : Nat → Nat)
    (hN : (sent :: l.map Prod.fst).Nodup)
    (hf : fresh ∉ sent :: l.map Prod.fst) :
    RingOK sent ((q_insert_head (fresh, s) l).map Prod.fst) ∧
    RingOK sent ((q_insert_tail (fresh, s) l).map Prod.fst) ∧
    RingOK sent ((afterRemoveHead l).map Prod.fst) ∧
    RingOK sent ((afterRemoveTail l).map Prod.fst) ∧
    RingOK sent ((q_delete_mid_list l).map Prod.fst) ∧
    RingOK sent ((q_delete_dup_go cmpSnd l).map Prod.fst) ∧
    RingOK sent ((q_swap l).map Prod.fst) ∧
    RingOK sent ((q_reverse l).map Prod.fst) ∧
    RingOK sent ((q_sort cmpSnd l).map Prod.fst) ∧
    RingOK sent ((q_shuffle r l).map Prod.fst) := by
  have hsent : sent ∉ l.map Prod.fst := (List.nodup_cons.1 hN).1
  have hf1 : fresh ≠ sent := fun h => hf (h ▸ List.mem_cons_self _ _)
  have hf2 : fresh ∉ l.map Prod.fst := fun h => hf (List.mem_cons_of_mem _ h)
  have hconsN : (sent :: fresh :: l.map Prod.fst).Nodup := by
    refine List.nodup_cons.2 ⟨?_, List.nodup_cons.2 ⟨hf2, (List.nodup_cons.1 hN).2⟩⟩
    intro hmem
    rcases List.mem_cons.1 hmem with h | h
    · exact hf1 h.symm
    · exact hsent h
  refine ⟨?_, ?_, ?_, ?_, ?_, ?_, ?_, ?_, ?_, ?_⟩
  · exact RingOK_of_nodup sent _ hconsN
  · apply RingOK_of_nodup
    have hmap : (q_insert_tail (fresh, s) l).map Prod.fst
        = l.map Prod.fst ++ [fresh] := by
      simp [q_insert_tail]
    rw [hmap]
    exact nodup_ring_of_perm sent (List.perm_append_singleton fresh _) hconsN
  · exact RingOK_of_nodup sent _
      (nodup_ring_of_sublist sent ((afterRemoveHead_sublist l).map Prod.fst) hN)
  · exact RingOK_of_nodup sent _
      (nodup_ring_of_sublist sent ((afterRemoveTail_sublist l).map Prod.fst) hN)
  · exact RingOK_of_nodup sent _
      (nodup_ring_of_sublist sent ((q_delete_mid_list_sublist l).map Prod.fst) hN)
  · exact RingOK_of_nodup sent _
      (nodup_ring_of_sublist sent
        ((q_delete_dup_go_sublist cmpSnd l.length l (Nat.le_refl _)).map Prod.fst) hN)
  · exact RingOK_of_nodup sent _
      (nodup_ring_of_perm sent ((q_swap_perm l).map Prod.fst) hN)
  · exact RingOK_of_nodup sent _
      (nodup_ring_of_perm sent ((q_reverse_perm l).map Prod.fst) hN)
  · exact RingOK_of_nodup sent _
      (nodup_ring_of_perm sent ((q_sort_perm cmpSnd l).map Prod.fst) hN)
  · exact RingOK_of_nodup sent _
      (nodup_ring_of_perm sent ((q_shuffle_perm r l).map Prod.fst) hN)

/-- Witness for C4 at the concrete ring: sentinel 0, nodes 1, 2 carrying
equal values, fresh node 3. -/
theorem ring_invariant_ops_witness :
    RingOK 0 ((q_insert_head (3, ([98] : V)) [(1, ([97] : V)), (2, [97])]).map Prod.fst) :=
  (ring_invariant_ops 0 [(1, [97]), (2, [97])] 3 [98] (fun _ => 1)
    (by decide) (by decide)).1

/-- C2 (failing input): on the 6-element queue `["0","1","2","3","4","5"]`
(ASCII bytes 48-53), `q_delete_mid` returns `true` but deletes the element
at index 2 (value `"2"`), not the element at index 3 (value `"3"`) required
by the claim and by the function's own comment (queue.c:166-173). -/
theorem delete_mid_six_eval :
    q_delete_mid (some ([[48], [49], [50], [51], [52], [53]] : List V))
        = (true, some [[48], [49], [51], [52], [53]]) ∧
    q_delete_mid (some ([[48], [49], [50], [51], [52], [53]] : List V))
        ≠ (true, some [[48], [49], [50], [52], [53]]) := by
  constructor
  · rfl
  · decide

end LabQueue
